import Mathlib

/-!
Verification of the PyAutoLens lensing-inversion core against its
natural-language specification.

The development shallowly embeds the relevant source functions:

* `src/src/analysis/fitting.py` — chi-squared, noise-normalization,
  likelihood and pixelization-evidence calculators (1D data vectors of
  length `n` are embedded as functions `Fin n → ℝ`, `np.sum` as a
  `Finset` sum over `Fin n`).
* `src/autolens/inversion/convolution.py` — the JIT mapping-matrix
  convolution kernel (`convolve_matrix_jit`); 2D numpy arrays are
  embedded as a shape-carrying structure `NDArray2`, and the imperative
  scatter-accumulate loops as the equivalent sum of the contributions of
  all loop iterations into each output cell.
* `src/auto_lens/test/integration/test_simple_images_fit_with_pixelization.py`
  — the worked 5×5 / 9-pixel scenario, embedded through its literal
  matrices (`reg_matrix` below is the literal 9×9 regularization matrix
  of that test).
* `src/autolens/pipeline/phase/phase_extensions/hyper_phase.py` — the
  `HyperPhase.run` wrapper, embedded with an explicit reference store so
  that the deep-copy/mutation behaviour is visible.

Pieces of the repository that the claims depend on but whose source is
not available here (the pixelization/inversion internals behind
`pix_fit`, and the direct image convolver that the mapping-matrix
convolver inherits from) are modelled from the specification; each such
definition carries a doc comment starting with `Modelled from the
spec:`.  Machine floats are embedded as real numbers, so every numeric
identity below is exact.
-/

open Finset
open scoped Matrix

namespace AutoLens

/-! ## `src/src/analysis/fitting.py`: scalar fit terms -/

/-- Embedding of `fitting.compute_chi_sq_term`:
`np.sum((np.add(image.view(float), - model_image) / noise) ** 2.0)`. -/
noncomputable def compute_chi_sq_term {n : ℕ} (image noise model_image : Fin n → ℝ) : ℝ :=
  ∑ i, ((image i + -model_image i) / noise i) ^ 2

/-- Embedding of `fitting.compute_noise_term`:
`np.sum(np.log(2 * np.pi * noise ** 2.0))`. -/
noncomputable def compute_noise_term {n : ℕ} (noise : Fin n → ℝ) : ℝ :=
  ∑ i, Real.log (2 * Real.pi * noise i ^ 2)

/-- Embedding of `fitting.compute_likelihood`:
`-0.5 * (compute_chi_sq_term(image, noise, model_image) + compute_noise_term(noise))`. -/
noncomputable def compute_likelihood {n : ℕ} (image noise model_image : Fin n → ℝ) : ℝ :=
  -0.5 * (compute_chi_sq_term image noise model_image + compute_noise_term noise)

/-! ## The inversion error and the Cholesky log-determinant

The pixelization/inversion class whose methods `compute_pixelization_evidence`
calls is not under `src/`; the definitions in this section are modelled
from the specification (§4.3 Inversion Solver, §7 Error Handling). -/

/-- The typed error raised when a Cholesky-style factorization fails
(spec §7: `InversionError` — normal-equations matrix not positive-definite). -/
inductive InversionError : Type where
  | inversionError : InversionError

/-- Modelled from the spec: `log_determinant_via_cholesky(matrix)` returns
`2·Σ log(diag(L))` where `L` is the lower-Cholesky factor, and fails with
`InversionError` if the matrix is not positive-definite (a Cholesky
factorization of a symmetric matrix succeeds exactly on positive-definite
input).  The diagonal of the Cholesky factor `L = L₀·√D` of the
`L₀ D L₀ᴴ` (LDL) decomposition is `√(Dᵢᵢ)`, since `L₀` is unit
lower-triangular; the returned value is therefore
`2·Σᵢ log √(Dᵢᵢ)` with `D` the LDL diagonal. -/
noncomputable def log_determinant_of_matrix_cholesky {q : ℕ}
    (M : Matrix (Fin q) (Fin q) ℝ) : Except InversionError ℝ :=
  haveI : WellFoundedLT (Fin q) := inferInstance
  haveI := Classical.propDecidable M.PosDef
  if h : M.PosDef then
    Except.ok (2 * ∑ i, Real.log (Real.sqrt (LDL.diagEntries h i)))
  else
    Except.error InversionError.inversionError

/-! ## The pixelization fit object and the evidence calculator -/

/-- Modelled from the spec: the data carried by a pixelization fit
(`pix_fit`): the solved reconstruction vector `s`, the noise-weighted
mapping covariance `F` and the regularization matrix `R` (spec §3,
§4.3).  The matrices are `p × p` over the `p` source pixels. -/
structure PixFit (p : ℕ) where
  reconstruction : Fin p → ℝ
  covariance : Matrix (Fin p) (Fin p) ℝ
  regularization : Matrix (Fin p) (Fin p) ℝ

/-- Modelled from the spec: the Covariance/Regularization sum matrix
`F + R` (spec §3). -/
noncomputable def PixFit.covariance_regularization {p : ℕ} (pix_fit : PixFit p) :
    Matrix (Fin p) (Fin p) ℝ :=
  pix_fit.covariance + pix_fit.regularization

/-- Modelled from the spec: `regularization_term(s, R) = sᵗ·R·s` (spec §4.3). -/
noncomputable def PixFit.regularization_term_from_reconstruction {p : ℕ}
    (pix_fit : PixFit p) : ℝ :=
  pix_fit.reconstruction ⬝ᵥ (pix_fit.regularization *ᵥ pix_fit.reconstruction)

/-- Embedding of `fitting.compute_pixelization_evidence`:

`-0.5 * (compute_chi_sq_term(image, noise, model_image)
         + pix_fit.regularization_term_from_reconstruction()
         + pix_fit.log_determinant_of_matrix_cholesky(pix_fit.covariance_regularization)
         - pix_fit.log_determinant_of_matrix_cholesky(pix_fit.regularization)
         + compute_noise_term(noise))`

A raised `InversionError` propagates out of the evidence computation;
the two log-determinant calls are evaluated in the Python left-to-right
order, matched here by the explicit matches. -/
noncomputable def compute_pixelization_evidence {n p : ℕ}
    (image noise model_image : Fin n → ℝ) (pix_fit : PixFit p) :
    Except InversionError ℝ :=
  match log_determinant_of_matrix_cholesky
      (pix_fit.covariance_regularization : Matrix (Fin p) (Fin p) ℝ) with
  | Except.error e => Except.error e
  | Except.ok det_cov_reg =>
    match log_determinant_of_matrix_cholesky
        (pix_fit.regularization : Matrix (Fin p) (Fin p) ℝ) with
    | Except.error e => Except.error e
    | Except.ok det_reg =>
      Except.ok (-0.5 * (compute_chi_sq_term image noise model_image
        + pix_fit.regularization_term_from_reconstruction
        + det_cov_reg - det_reg
        + compute_noise_term noise))

/-! ## The inversion solver (modelled from spec §4.3) -/

/-- Modelled from the spec:
`build_normal_equations(blurred_mapping_matrix, noise_map)` produces
`F = Mᵗ · diag(1/noise²) · M`. -/
noncomputable def build_normal_equations {n p : ℕ}
    (blurred_mapping_matrix : Matrix (Fin n) (Fin p) ℝ) (noise_map : Fin n → ℝ) :
    Matrix (Fin p) (Fin p) ℝ :=
  blurred_mapping_matrixᵀ * Matrix.diagonal (fun i => 1 / noise_map i ^ 2) *
    blurred_mapping_matrix

/-- Modelled from the spec: `solve(F, R, data_vector, noise_map,
blurred_mapping_matrix)` solves `(F + R)·s = Mᵗ·diag(1/noise²)·d` for the
reconstruction vector `s` (written with the Mathlib matrix inverse; the
not-positive-definite failure case is surfaced by the Cholesky
log-determinant of the same matrix `F + R` inside the evidence). -/
noncomputable def solve {n p : ℕ} (F R : Matrix (Fin p) (Fin p) ℝ)
    (data_vector noise_map : Fin n → ℝ)
    (blurred_mapping_matrix : Matrix (Fin n) (Fin p) ℝ) : Fin p → ℝ :=
  (F + R)⁻¹ *ᵥ (blurred_mapping_matrixᵀ *ᵥ fun i => data_vector i / noise_map i ^ 2)

/-- Modelled from the spec:
`model_image_from_reconstruction(blurred_mapping_matrix, s) = M · s`. -/
noncomputable def model_image_from_reconstruction {n p : ℕ}
    (blurred_mapping_matrix : Matrix (Fin n) (Fin p) ℝ) (s : Fin p → ℝ) : Fin n → ℝ :=
  blurred_mapping_matrix *ᵥ s

/-- Modelled from the spec: the pixelization fit pipeline
`fit_data_with_pixelization` downstream of the ray tracer and the
mapping-matrix convolution (both already applied, so the input is the
blurred mapping matrix): form `F`, solve for the reconstruction,
reconstruct the blurred model image, and compute the evidence. -/
noncomputable def fit_data_with_pixelization {n p : ℕ}
    (blurred_mapping_matrix : Matrix (Fin n) (Fin p) ℝ) (image noise : Fin n → ℝ)
    (regularization : Matrix (Fin p) (Fin p) ℝ) : Except InversionError ℝ :=
  let F := build_normal_equations blurred_mapping_matrix noise
  let s := solve F regularization image noise blurred_mapping_matrix
  let model_image := model_image_from_reconstruction blurred_mapping_matrix s
  compute_pixelization_evidence image noise model_image ⟨s, F, regularization⟩

/-! ## `src/autolens/inversion/convolution.py`: mapping-matrix convolution

A 2D numpy array is embedded as `NDArray2`: an explicit shape
`(rows, cols)` together with the entry function.  The source allocates
`np.zeros(mapping_matrix.shape)` and scatter-accumulates
`blurred_mapping_matrix[vector_index, pixel_index] += value * kernel`
over the loop nest; since addition is commutative, the final content of
an output cell is the sum of the contributions of all loop iterations
targeting it, which is how `entry` is defined below. -/

/-- A 2D numpy array: a shape together with the entries. -/
@[ext]
structure NDArray2 (α : Type) where
  rows : ℕ
  cols : ℕ
  entry : ℕ → ℕ → α

/-- Embedding of `ConvolverMappingMatrix.convolve_matrix_jit`.  The frame
data is the triple of parallel arrays `image_frame_indexes`,
`image_frame_kernels`, `image_frame_lengths` (per image pixel: scatter
target indices, kernel weights and the number of valid taps).  The inner
accumulation runs only when `mapping_matrix[image_index, pixel_index] > 0`,
exactly as the guard `if value > 0` in the source. -/
def convolve_matrix_jit {α : Type} [LinearOrderedField α] (mapping_matrix : NDArray2 α)
    (image_frame_indexes : ℕ → ℕ → ℕ) (image_frame_kernels : ℕ → ℕ → α)
    (image_frame_lengths : ℕ → ℕ) : NDArray2 α :=
  ⟨mapping_matrix.rows, mapping_matrix.cols, fun vector_index pixel_index =>
    ∑ image_index ∈ Finset.range mapping_matrix.rows,
      if 0 < mapping_matrix.entry image_index pixel_index then
        ∑ kernel_index ∈ Finset.range (image_frame_lengths image_index),
          if image_frame_indexes image_index kernel_index = vector_index then
            mapping_matrix.entry image_index pixel_index *
              image_frame_kernels image_index kernel_index
          else 0
      else 0⟩

/-- The identity mapping matrix (the unit-basis decomposition of a full
image vector: column `j` is the image that is `1` at pixel `j` and `0`
elsewhere). -/
def identity_mapping_matrix {α : Type} [LinearOrderedField α] (n : ℕ) : NDArray2 α :=
  ⟨n, n, fun i j => if i = j then 1 else 0⟩

/-- Matrix–vector product of an `NDArray2` with a 1D vector (`np.dot`),
used to reassemble the columns of a blurred mapping matrix against a
vector of per-column amplitudes. -/
def NDArray2.matVec {α : Type} [LinearOrderedField α] (M : NDArray2 α) (v : ℕ → α) :
    ℕ → α :=
  fun r => ∑ j ∈ Finset.range M.cols, M.entry r j * v j

/-- Modelled from the spec: the Frame Convolver's direct operation
`convolve(vector)` on a full 1D image vector (the imaging convolver that
`ConvolverMappingMatrix` inherits from is not under `src/`).  Per the
spec, the frame of each image pixel scatters `vector[i] * weight` to each
recorded target index. -/
def convolve_vector {α : Type} [LinearOrderedField α] (n_pixels : ℕ) (vector : ℕ → α)
    (image_frame_indexes : ℕ → ℕ → ℕ) (image_frame_kernels : ℕ → ℕ → α)
    (image_frame_lengths : ℕ → ℕ) : ℕ → α :=
  fun vector_index =>
    ∑ image_index ∈ Finset.range n_pixels,
      ∑ kernel_index ∈ Finset.range (image_frame_lengths image_index),
        if image_frame_indexes image_index kernel_index = vector_index then
          vector image_index * image_frame_kernels image_index kernel_index
        else 0

/-- Replace every non-positive entry of a mapping matrix by zero. -/
def zero_out_nonpositive {α : Type} [LinearOrderedField α] (M : NDArray2 α) : NDArray2 α :=
  ⟨M.rows, M.cols, fun i j => if M.entry i j ≤ 0 then 0 else M.entry i j⟩

/-! ## The 5×5 / 9-pixel integration-test scenario

`test__image_all_1s__direct_image_to_source_mapping__perfect_fit_even_with_regularization`:
9 unmasked all-ones pixels, unit noise, identity (delta-function) PSF and
a one-to-one 9-pixel pixelization, so the blurred mapping matrix is the
9×9 identity; `reg_matrix` is the literal regularization matrix of the
test (the adjacency Laplacian of the 3×3 pixel grid with regularization
coefficient 1). -/

/-- The 9 unmasked data pixels of the 5×5 all-ones-interior test image. -/
noncomputable def image_1s : Fin 9 → ℝ := fun _ => 1

/-- The unit noise map of the test. -/
noncomputable def noise_1s : Fin 9 → ℝ := fun _ => 1

/-- The blurred mapping matrix of the test: the identity PSF does not
blur, and the 9-pixel pixelization maps the 9 image pixels one-to-one. -/
noncomputable def mapping_1to1 : Matrix (Fin 9) (Fin 9) ℝ := 1

/-- The literal 9×9 regularization matrix of the integration test
(the adjacency Laplacian of the 3×3 source-pixel grid). -/
noncomputable def reg_matrix : Matrix (Fin 9) (Fin 9) ℝ :=
  !![ 2, -1,  0, -1,  0,  0,  0,  0,  0;
     -1,  3, -1,  0, -1,  0,  0,  0,  0;
      0, -1,  2,  0,  0, -1,  0,  0,  0;
     -1,  0,  0,  3, -1,  0, -1,  0,  0;
      0, -1,  0, -1,  4, -1,  0, -1,  0;
      0,  0, -1,  0, -1,  3,  0,  0, -1;
      0,  0,  0, -1,  0,  0,  2, -1,  0;
      0,  0,  0,  0, -1,  0, -1,  3, -1;
      0,  0,  0,  0,  0, -1,  0, -1,  2]

/-- The oriented edge/incidence matrix of the 3×3 pixel-adjacency graph
(one row per adjacent pixel pair); used to factor `reg_matrix` and read
off its positive semidefiniteness. -/
noncomputable def incidence_matrix : Matrix (Fin 12) (Fin 9) ℝ :=
  !![1,-1, 0, 0, 0, 0, 0, 0, 0;
     1, 0, 0,-1, 0, 0, 0, 0, 0;
     0, 1,-1, 0, 0, 0, 0, 0, 0;
     0, 1, 0, 0,-1, 0, 0, 0, 0;
     0, 0, 1, 0, 0,-1, 0, 0, 0;
     0, 0, 0, 1,-1, 0, 0, 0, 0;
     0, 0, 0, 1, 0, 0,-1, 0, 0;
     0, 0, 0, 0, 1,-1, 0, 0, 0;
     0, 0, 0, 0, 1, 0, 0,-1, 0;
     0, 0, 0, 0, 0, 1, 0, 0,-1;
     0, 0, 0, 0, 0, 0, 1,-1, 0;
     0, 0, 0, 0, 0, 0, 0, 1,-1]

/-! ## `src/autolens/pipeline/phase/phase_extensions/hyper_phase.py`

`HyperPhase.run` manipulates Python objects by reference:
`copy.deepcopy(results)`, in-place `results.add(...)` and
`setattr(result, ...)`.  The heap of results collections is embedded as
an explicit `Store` mapping references (naturals) to collection values;
`deepcopy` allocates a fresh reference holding a copy of the pointed-to
value.  The wrapped `phase.run` and `run_hyper` bodies are fields of the
`HyperPhase` record (they are dynamically dispatched in the source),
acting on the store and on the reference they are handed. -/

/-- A result object: an opaque payload together with its (attribute
name, attribute value) list, latest-set first (`setattr`). -/
inductive ResultObj : Type where
  | mk : ℕ → List (String × ResultObj) → ResultObj

/-- `setattr(result, name, value)`. -/
def ResultObj.setattr : ResultObj → String → ResultObj → ResultObj
  | ResultObj.mk payload attrs, name, value => ResultObj.mk payload ((name, value) :: attrs)

/-- Attribute lookup (`getattr`): the most recently set binding wins. -/
def ResultObj.getattr : ResultObj → String → Option ResultObj
  | ResultObj.mk _ attrs, name => (attrs.find? fun e => e.1 = name).map fun e => e.2

/-- The value of an `af.ResultsCollection`: its (phase name, result) pairs. -/
abbrev ResultsCollection := List (String × ResultObj)

/-- The heap of results collections: a fresh-reference counter and the
pointed-to values. -/
structure Store where
  next : ℕ
  mem : ℕ → ResultsCollection

/-- Allocate a fresh reference holding collection value `c`
(`copy.deepcopy(results)` / `af.ResultsCollection()`). -/
def Store.alloc (c : ResultsCollection) (s : Store) : ℕ × Store :=
  (s.next, ⟨s.next + 1, Function.update s.mem s.next c⟩)

/-- In-place `results.add(phase_name, result)` on the collection behind
reference `ref`. -/
def Store.add (ref : ℕ) (name : String) (r : ResultObj) (s : Store) : Store :=
  ⟨s.next, Function.update s.mem ref (s.mem ref ++ [(name, r)])⟩

/-- A `HyperPhase`: the names and the (dynamically dispatched) behaviours
of the wrapped phase and of the hyper step, each receiving the data, a
results-collection reference and the store. -/
structure HyperPhase (D : Type) where
  phase_name : String
  hyper_name : String
  phase_run : D → ℕ → Store → ResultObj × Store
  run_hyper : D → ℕ → Store → ResultObj × Store

/-- Embedding of `HyperPhase.run` (hyper_phase.py lines 83–91):

`results = copy.deepcopy(results) if results is not None else af.ResultsCollection()`
(allocation of a fresh reference); `result = self.phase.run(data, results)`;
`results.add(self.phase.phase_name, result)` (in-place on the copy);
`hyper_result = self.run_hyper(data, results)`;
`setattr(result, self.hyper_name, hyper_result)`; `return result`. -/
def HyperPhase.run {D : Type} (hp : HyperPhase D) (data : D) (results : Option ℕ)
    (s : Store) : ResultObj × Store :=
  let rc := match results with
    | some r => Store.alloc (s.mem r) s
    | none => Store.alloc [] s
  let pr := hp.phase_run data rc.1 rc.2
  let s3 := Store.add rc.1 hp.phase_name pr.1 pr.2
  let hr := hp.run_hyper data rc.1 s3
  (pr.1.setattr hp.hyper_name hr.1, hr.2)

end AutoLens

namespace AutoLens

/-! ## Helper lemmas: the LDL decomposition and the Cholesky log-determinant -/

section GramSchmidtDiag

variable {𝕜 : Type*} {E : Type*} [RCLike 𝕜] [NormedAddCommGroup E] [InnerProductSpace 𝕜 E]
variable {ι : Type*} [LinearOrder ι] [LocallyFiniteOrderBot ι] [WellFoundedLT ι]

/-- Gram-Schmidt orthogonalization of a basis leaves each vector's own
basis coefficient equal to one (the subtracted projections involve
earlier vectors only). -/
lemma repr_gramSchmidt_diag (b : Basis ι 𝕜 E) (i : ι) :
    b.repr (gramSchmidt 𝕜 b i) i = 1 := by
  have h := gramSchmidt_def'' 𝕜 (b : ι → E) i
  have h2 := congrArg (fun x => b.repr x i) h
  simp only [map_add, map_sum, map_smul, Finsupp.add_apply, Finsupp.coe_finset_sum,
    Finset.sum_apply, Finsupp.smul_apply, smul_eq_mul] at h2
  rw [Basis.repr_self, Finsupp.single_eq_same] at h2
  have hz : ∀ j ∈ Finset.Iio i, (inner (gramSchmidt 𝕜 (⇑b) j) (b i) /
      ((‖gramSchmidt 𝕜 (⇑b) j‖ : 𝕜)) ^ 2) * b.repr (gramSchmidt 𝕜 (⇑b) j) i = 0 := by
    intro j hj
    rw [gramSchmidt_triangular (Finset.mem_Iio.mp hj) b, mul_zero]
  rw [Finset.sum_congr rfl hz, Finset.sum_const_zero, add_zero] at h2
  exact h2.symm

end GramSchmidtDiag

section LDLFacts

variable {m : Type*} [LinearOrder m] [WellFoundedLT m] [LocallyFiniteOrderBot m]
variable [Fintype m] {S : Matrix m m ℝ} (hS : S.PosDef)

/-- The inverse `L₀⁻¹` produced by the LDL decomposition has unit diagonal. -/
lemma lowerInv_diag_one (i : m) : LDL.lowerInv hS i i = 1 := by
  letI := Matrix.NormedAddCommGroup.ofMatrix hS.transpose
  letI := Matrix.InnerProductSpace.ofMatrix hS.transpose
  have h := repr_gramSchmidt_diag (𝕜 := ℝ) (Pi.basisFun ℝ m) i
  rw [Pi.basisFun_repr] at h
  exact h

/-- `L₀⁻¹` is unit lower-triangular, so its determinant is one. -/
lemma lowerInv_det_one : (LDL.lowerInv hS).det = 1 := by
  rw [Matrix.det_of_lowerTriangular (LDL.lowerInv hS)
    (fun i j hij => LDL.lowerInv_triangular hS hij)]
  simp [lowerInv_diag_one hS]

/-- The LDL diagonal entries of a positive definite matrix are positive
(they are quadratic-form values at nonzero rows of an invertible matrix). -/
lemma diagEntries_pos (i : m) : 0 < LDL.diagEntries hS i := by
  have hrow : LDL.lowerInv hS i ≠ 0 := by
    intro h0
    have hdet : (LDL.lowerInv hS).det = 0 := Matrix.det_eq_zero_of_row_eq_zero i
      (fun j => congrFun h0 j)
    rw [lowerInv_det_one hS] at hdet
    norm_num at hdet
  have hpos := hS.2 (star (LDL.lowerInv hS i)) (by simpa using hrow)
  simpa [LDL.diagEntries, EuclideanSpace.inner_piLp_equiv_symm] using hpos

/-- `det S` is the product of the LDL diagonal entries (the triangular
factors have determinant one). -/
lemma det_eq_prod_diagEntries : S.det = ∏ i, LDL.diagEntries hS i := by
  have h := LDL.lower_conj_diag hS
  have hdet := congrArg Matrix.det h
  rw [Matrix.det_mul, Matrix.det_mul, Matrix.det_conjTranspose] at hdet
  rw [LDL.lower, Matrix.det_nonsing_inv, lowerInv_det_one hS] at hdet
  simp only [Ring.inverse_one, star_one, one_mul, mul_one] at hdet
  rw [← hdet, LDL.diag, Matrix.det_diagonal]

end LDLFacts

/-- On a positive definite matrix, the Cholesky log-determinant succeeds
and (exactly, in real arithmetic) returns `log (det M)`. -/
lemma logdet_ok {q : ℕ} {M : Matrix (Fin q) (Fin q) ℝ} (hM : M.PosDef) :
    log_determinant_of_matrix_cholesky M = Except.ok (Real.log M.det) := by
  haveI : WellFoundedLT (Fin q) := inferInstance
  unfold log_determinant_of_matrix_cholesky
  rw [dif_pos hM]
  congr 1
  rw [Finset.sum_congr rfl (fun i _ =>
    Real.log_sqrt (le_of_lt (diagEntries_pos hM i)))]
  rw [← Finset.sum_div,
    ← Real.log_prod _ _ (fun i _ => ne_of_gt (diagEntries_pos hM i))]
  have hdet : M.det = ∏ i, LDL.diagEntries hM i := by
    convert det_eq_prod_diagEntries hM using 2
  rw [hdet]
  ring

/-- On a matrix that is not positive definite, the Cholesky
log-determinant fails with `InversionError`. -/
lemma logdet_error {q : ℕ} {M : Matrix (Fin q) (Fin q) ℝ} (hM : ¬ M.PosDef) :
    log_determinant_of_matrix_cholesky M = Except.error InversionError.inversionError := by
  unfold log_determinant_of_matrix_cholesky
  rw [dif_neg hM]

/-- A real matrix with a non-positive eigenvalue is not positive definite. -/
lemma not_posDef_of_nonpos_eigenvalue {m : Type*} [Fintype m] {M : Matrix m m ℝ}
    {μ : ℝ} (hμ : μ ≤ 0) {v : m → ℝ} (hv : v ≠ 0) (heig : M *ᵥ v = μ • v) :
    ¬ M.PosDef := by
  intro hPD
  have h := hPD.2 (star v) (by simpa using hv)
  simp only [star_trivial] at h
  rw [heig] at h
  have hdot : Matrix.dotProduct v (μ • v) = μ * Matrix.dotProduct v v := by
    simp [Matrix.dotProduct, Finset.mul_sum]
    ring_nf
    exact Finset.sum_congr rfl fun i _ => by ring
  rw [hdot] at h
  have hvv : 0 ≤ Matrix.dotProduct v v := Finset.sum_nonneg fun i _ => mul_self_nonneg (v i)
  nlinarith

/-- The chi-squared term written with a subtraction. -/
lemma chi_sq_term_eq {n : ℕ} (image noise model_image : Fin n → ℝ) :
    compute_chi_sq_term image noise model_image =
      ∑ i, ((image i - model_image i) / noise i) ^ 2 := by
  unfold compute_chi_sq_term
  simp [sub_eq_add_neg]

end AutoLens

namespace AutoLens

/-! ## Helper lemmas: evidence reduction -/

/-- Reduction of the evidence calculator when both log-determinants succeed. -/
lemma evidence_of_ok_ok {n p : ℕ} (image noise model_image : Fin n → ℝ)
    (pix_fit : PixFit p) {a b : ℝ}
    (h1 : log_determinant_of_matrix_cholesky pix_fit.covariance_regularization =
      Except.ok a)
    (h2 : log_determinant_of_matrix_cholesky pix_fit.regularization = Except.ok b) :
    compute_pixelization_evidence image noise model_image pix_fit =
      Except.ok (-0.5 * (compute_chi_sq_term image noise model_image
        + pix_fit.regularization_term_from_reconstruction
        + a - b + compute_noise_term noise)) := by
  unfold compute_pixelization_evidence
  rw [h1, h2]

/-- Reduction of the evidence calculator when the regularization-matrix
log-determinant fails. -/
lemma evidence_of_ok_error {n p : ℕ} (image noise model_image : Fin n → ℝ)
    (pix_fit : PixFit p) {a : ℝ}
    (h1 : log_determinant_of_matrix_cholesky pix_fit.covariance_regularization =
      Except.ok a)
    (h2 : log_determinant_of_matrix_cholesky pix_fit.regularization =
      Except.error InversionError.inversionError) :
    compute_pixelization_evidence image noise model_image pix_fit =
      Except.error InversionError.inversionError := by
  unfold compute_pixelization_evidence
  rw [h1, h2]

/-! ## Helper lemmas: the 5×5 / 9-pixel scenario -/

set_option maxHeartbeats 1000000 in
/-- The test's regularization matrix factors through the incidence matrix
of the 3×3 adjacency graph. -/
lemma reg_matrix_eq_factored : reg_matrix = incidence_matrixᴴ * incidence_matrix := by
  ext i j
  fin_cases i <;> fin_cases j <;>
    norm_num [reg_matrix, incidence_matrix, Matrix.mul_apply,
      Matrix.conjTranspose_apply, Fin.sum_univ_succ]

/-- The adjacency Laplacian is positive semidefinite. -/
lemma reg_matrix_posSemidef : reg_matrix.PosSemidef := by
  rw [reg_matrix_eq_factored]
  exact Matrix.posSemidef_conjTranspose_mul_self incidence_matrix

/-- The all-ones vector is in the kernel of the adjacency Laplacian
(each row sums to zero). -/
lemma reg_matrix_mulVec_one : reg_matrix *ᵥ (fun _ => (1:ℝ)) = 0 := by
  funext i
  fin_cases i <;>
    norm_num [reg_matrix, Matrix.mulVec, Matrix.dotProduct, Fin.sum_univ_succ]

/-- The adjacency Laplacian is singular: the all-ones vector is an
eigenvector with eigenvalue `0`, so the matrix is not positive definite
and its Cholesky factorization fails. -/
lemma reg_matrix_not_posDef : ¬ reg_matrix.PosDef := by
  have hv : (fun _ => (1:ℝ)) ≠ (0 : Fin 9 → ℝ) := by
    intro h
    have h0 := congrFun h 0
    norm_num at h0
  have heig : reg_matrix *ᵥ (fun _ => (1:ℝ)) = (0:ℝ) • (fun _ => (1:ℝ)) := by
    rw [reg_matrix_mulVec_one, zero_smul]
  exact not_posDef_of_nonpos_eigenvalue (le_refl (0:ℝ)) hv heig

/-- `I + R` is positive definite (identity plus a positive semidefinite
matrix). -/
lemma one_add_reg_posDef : ((1 : Matrix (Fin 9) (Fin 9) ℝ) + reg_matrix).PosDef :=
  Matrix.PosDef.one.add_posSemidef reg_matrix_posSemidef

/-- In the scenario, the noise-weighted normal-equations matrix `F` is
the identity. -/
lemma scenario_F : build_normal_equations mapping_1to1 noise_1s = 1 := by
  unfold build_normal_equations mapping_1to1 noise_1s
  norm_num

/-- In the scenario, the right-hand side `Mᵗ·diag(1/noise²)·d` of the
normal equations is the all-ones vector. -/
lemma scenario_rhs :
    mapping_1to1ᵀ *ᵥ (fun i => image_1s i / noise_1s i ^ 2) = fun _ => (1:ℝ) := by
  unfold mapping_1to1 image_1s noise_1s
  norm_num

/-- The scenario's reconstruction is the all-ones source vector: a
perfect, zero-penalty fit. -/
lemma scenario_s : solve 1 reg_matrix image_1s noise_1s mapping_1to1 = fun _ => (1:ℝ) := by
  unfold solve
  rw [scenario_rhs]
  have h1 : ((1 : Matrix (Fin 9) (Fin 9) ℝ) + reg_matrix) *ᵥ (fun _ => (1:ℝ)) =
      fun _ => (1:ℝ) := by
    rw [Matrix.add_mulVec, reg_matrix_mulVec_one, Matrix.one_mulVec]
    simp
  have hdet : IsUnit ((1 : Matrix (Fin 9) (Fin 9) ℝ) + reg_matrix).det :=
    (Matrix.isUnit_iff_isUnit_det _).mp one_add_reg_posDef.isUnit
  calc ((1 : Matrix (Fin 9) (Fin 9) ℝ) + reg_matrix)⁻¹ *ᵥ (fun _ => (1:ℝ))
      = ((1 : Matrix (Fin 9) (Fin 9) ℝ) + reg_matrix)⁻¹ *ᵥ
        (((1 : Matrix (Fin 9) (Fin 9) ℝ) + reg_matrix) *ᵥ (fun _ => (1:ℝ))) := by
        rw [h1]
    _ = (((1 : Matrix (Fin 9) (Fin 9) ℝ) + reg_matrix)⁻¹ *
        ((1 : Matrix (Fin 9) (Fin 9) ℝ) + reg_matrix)) *ᵥ (fun _ => (1:ℝ)) := by
        rw [Matrix.mulVec_mulVec]
    _ = fun _ => (1:ℝ) := by
        rw [Matrix.nonsing_inv_mul _ hdet, Matrix.one_mulVec]

/-- The scenario's model image is the all-ones image: it reproduces the
data exactly. -/
lemma scenario_model :
    model_image_from_reconstruction mapping_1to1 (fun _ => (1:ℝ)) = fun _ => (1:ℝ) := by
  unfold model_image_from_reconstruction mapping_1to1
  exact Matrix.one_mulVec _

/-- The scenario's chi-squared term vanishes. -/
lemma scenario_chi_zero :
    compute_chi_sq_term image_1s noise_1s (fun _ => (1:ℝ)) = 0 := by
  unfold compute_chi_sq_term image_1s noise_1s
  simp

/-- The scenario's regularization penalty vanishes (the reconstruction is
constant and the Laplacian kills constants). -/
lemma scenario_regterm :
    PixFit.regularization_term_from_reconstruction
      ⟨fun _ => (1:ℝ), 1, reg_matrix⟩ = 0 := by
  unfold PixFit.regularization_term_from_reconstruction
  dsimp only
  rw [reg_matrix_mulVec_one, Matrix.dotProduct_zero]

/-- The scenario's fit fails with `InversionError`: the `log_det(F+R)`
term is fine, but `log_det(R)` does not exist since the adjacency
Laplacian is singular. -/
lemma scenario_fit_error :
    fit_data_with_pixelization mapping_1to1 image_1s noise_1s reg_matrix =
      Except.error InversionError.inversionError := by
  unfold fit_data_with_pixelization
  dsimp only
  rw [scenario_F, scenario_s]
  refine evidence_of_ok_error _ _ _ _ (logdet_ok ?_) (logdet_error reg_matrix_not_posDef)
  exact one_add_reg_posDef

end AutoLens

namespace AutoLens

/-! ## Claim theorems -/

/-- C5: for every data vector, noise vector and model image vector of
equal length, `compute_chi_sq_term` returns the sum over pixels of
`((data - model) / noise)^2`. -/
theorem compute_chi_sq_term_eq {n : ℕ} (image noise model_image : Fin n → ℝ) :
    compute_chi_sq_term image noise model_image =
      ∑ i, ((image i - model_image i) / noise i) ^ 2 :=
  chi_sq_term_eq image noise model_image

/-- C6: `compute_noise_term` returns the sum over pixels of
`log (2π·noise²)`, and the profile-fit likelihood `compute_likelihood`
equals `-0.5 · (chi_squared + noise_normalization)`. -/
theorem compute_noise_term_and_likelihood_eq {n : ℕ}
    (image noise model_image : Fin n → ℝ) :
    compute_noise_term noise = ∑ i, Real.log (2 * Real.pi * noise i ^ 2) ∧
      compute_likelihood image noise model_image =
        -0.5 * ((∑ i, ((image i - model_image i) / noise i) ^ 2) +
          ∑ i, Real.log (2 * Real.pi * noise i ^ 2)) := by
  refine ⟨rfl, ?_⟩
  unfold compute_likelihood
  rw [chi_sq_term_eq]
  rfl

/-- C1: for every observed image vector, noise vector, model image
vector and pixelization fit (with well-posed matrices, so that the two
Cholesky factorizations succeed), the pixelization evidence equals
`-0.5 · (chi_squared + sᵗRs + log_det(F+R) - log_det(R) + noise_normalization)`,
the two log-determinants being the (exact) values returned by the
Cholesky log-determinant. -/
theorem compute_pixelization_evidence_formula {n p : ℕ}
    (image noise model_image : Fin n → ℝ) (pix_fit : PixFit p)
    (hcr : pix_fit.covariance_regularization.PosDef)
    (hr : pix_fit.regularization.PosDef) :
    compute_pixelization_evidence image noise model_image pix_fit =
      Except.ok (-0.5 * ((∑ i, ((image i - model_image i) / noise i) ^ 2)
        + pix_fit.reconstruction ⬝ᵥ (pix_fit.regularization *ᵥ pix_fit.reconstruction)
        + Real.log pix_fit.covariance_regularization.det
        - Real.log pix_fit.regularization.det
        + ∑ i, Real.log (2 * Real.pi * noise i ^ 2))) := by
  rw [evidence_of_ok_ok image noise model_image pix_fit (logdet_ok hcr) (logdet_ok hr)]
  rw [chi_sq_term_eq]
  rfl

/-- Witness for C1 at a concrete well-posed one-pixel fit. -/
theorem compute_pixelization_evidence_formula_witness :
    compute_pixelization_evidence (fun _ : Fin 1 => (2:ℝ)) (fun _ : Fin 1 => (1:ℝ))
        (fun _ : Fin 1 => (1:ℝ)) (⟨fun _ => (1:ℝ), 1, 1⟩ : PixFit 1) =
      Except.ok (-0.5 * ((∑ i : Fin 1, (((fun _ : Fin 1 => (2:ℝ)) i
            - (fun _ : Fin 1 => (1:ℝ)) i) / (fun _ : Fin 1 => (1:ℝ)) i) ^ 2)
        + (⟨fun _ => (1:ℝ), 1, 1⟩ : PixFit 1).reconstruction ⬝ᵥ
            ((⟨fun _ => (1:ℝ), 1, 1⟩ : PixFit 1).regularization *ᵥ
              (⟨fun _ => (1:ℝ), 1, 1⟩ : PixFit 1).reconstruction)
        + Real.log (⟨fun _ => (1:ℝ), 1, 1⟩ : PixFit 1).covariance_regularization.det
        - Real.log (⟨fun _ => (1:ℝ), 1, 1⟩ : PixFit 1).regularization.det
        + ∑ i : Fin 1, Real.log (2 * Real.pi * (fun _ : Fin 1 => (1:ℝ)) i ^ 2))) :=
  compute_pixelization_evidence_formula (fun _ : Fin 1 => (2:ℝ)) (fun _ : Fin 1 => (1:ℝ))
    (fun _ : Fin 1 => (1:ℝ)) (⟨fun _ => (1:ℝ), 1, 1⟩ : PixFit 1)
    (Matrix.PosDef.add Matrix.PosDef.one Matrix.PosDef.one) Matrix.PosDef.one

/-- C3: the Cholesky log-determinant fails with `InversionError` on
every symmetric matrix with a non-positive eigenvalue, and on every
positive definite matrix it succeeds with a value equal to
`log (det M)` — in particular within any relative tolerance, the spec's
`1e-4` included (real arithmetic is exact). -/
theorem log_determinant_of_matrix_cholesky_spec :
    (∀ (q : ℕ) (M : Matrix (Fin q) (Fin q) ℝ) (μ : ℝ) (v : Fin q → ℝ),
      M.IsHermitian → μ ≤ 0 → v ≠ 0 → M *ᵥ v = μ • v →
      log_determinant_of_matrix_cholesky M = Except.error InversionError.inversionError) ∧
    (∀ (q : ℕ) (M : Matrix (Fin q) (Fin q) ℝ), M.PosDef →
      ∃ val, log_determinant_of_matrix_cholesky M = Except.ok val ∧
        |val - Real.log M.det| ≤ 1 / 10000 * |Real.log M.det|) := by
  constructor
  · intro q M μ v _ hμ hv heig
    exact logdet_error (not_posDef_of_nonpos_eigenvalue hμ hv heig)
  · intro q M hM
    refine ⟨Real.log M.det, logdet_ok hM, ?_⟩
    rw [sub_self, abs_zero]
    positivity

/-- Witness for C3: the `1×1` matrix `[-1]` (eigenvalue `-1`) fails; the
`1×1` identity succeeds within tolerance. -/
theorem log_determinant_of_matrix_cholesky_spec_witness :
    (log_determinant_of_matrix_cholesky !![(-1:ℝ)] =
      Except.error InversionError.inversionError) ∧
    (∃ val, log_determinant_of_matrix_cholesky (1 : Matrix (Fin 1) (Fin 1) ℝ) =
      Except.ok val ∧
      |val - Real.log (1 : Matrix (Fin 1) (Fin 1) ℝ).det| ≤
        1 / 10000 * |Real.log (1 : Matrix (Fin 1) (Fin 1) ℝ).det|) := by
  constructor
  · refine log_determinant_of_matrix_cholesky_spec.1 1 !![(-1:ℝ)] (-1) (fun _ => 1)
      ?_ ?_ ?_ ?_
    · ext i j
      fin_cases i
      fin_cases j
      norm_num [Matrix.conjTranspose_apply]
    · norm_num
    · intro h
      have h0 := congrFun h 0
      norm_num at h0
    · funext i
      fin_cases i
      norm_num [Matrix.mulVec, Matrix.dotProduct]
  · exact log_determinant_of_matrix_cholesky_spec.2 1 1 Matrix.PosDef.one

/-- C7: the blurred mapping matrix returned by the mapping-matrix
convolution has exactly the shape `(n_image_pixels, n_source_pixels)` of
the input mapping matrix. -/
theorem convolve_matrix_jit_shape (M : NDArray2 ℝ) (image_frame_indexes : ℕ → ℕ → ℕ)
    (image_frame_kernels : ℕ → ℕ → ℝ) (image_frame_lengths : ℕ → ℕ) :
    (convolve_matrix_jit M image_frame_indexes image_frame_kernels
        image_frame_lengths).rows = M.rows ∧
      (convolve_matrix_jit M image_frame_indexes image_frame_kernels
        image_frame_lengths).cols = M.cols :=
  ⟨rfl, rfl⟩

/-- C9: `convolve_matrix_jit` treats every non-positive entry of the
mapping matrix as exactly zero: replacing all entries `≤ 0` by `0`
leaves the blurred mapping matrix unchanged, because the inner
accumulation loop only runs for entries strictly greater than zero. -/
theorem convolve_matrix_jit_zero_out_nonpositive (M : NDArray2 ℝ)
    (image_frame_indexes : ℕ → ℕ → ℕ) (image_frame_kernels : ℕ → ℕ → ℝ)
    (image_frame_lengths : ℕ → ℕ) :
    convolve_matrix_jit (zero_out_nonpositive M) image_frame_indexes
        image_frame_kernels image_frame_lengths =
      convolve_matrix_jit M image_frame_indexes image_frame_kernels
        image_frame_lengths := by
  unfold convolve_matrix_jit zero_out_nonpositive
  dsimp only
  congr 1
  funext vector_index pixel_index
  refine Finset.sum_congr rfl fun image_index _ => ?_
  by_cases h : M.entry image_index pixel_index ≤ 0
  · simp [h, not_lt.2 h]
  · simp [h, lt_of_not_le h]

/-- C2: for every frame table (mask and PSF kernel) and every full image
vector, the blurred mapping matrix of the identity mapping matrix,
multiplied by the image vector, equals the directly convolved image
vector: column-wise convolution of the unit-basis decomposition agrees
with one direct convolution of the full image. -/
theorem convolve_identity_matVec_eq_convolve_vector (n : ℕ) (v : ℕ → ℝ)
    (image_frame_indexes : ℕ → ℕ → ℕ) (image_frame_kernels : ℕ → ℕ → ℝ)
    (image_frame_lengths : ℕ → ℕ) (r : ℕ) :
    (convolve_matrix_jit (identity_mapping_matrix n) image_frame_indexes
        image_frame_kernels image_frame_lengths).matVec v r =
      convolve_vector n v image_frame_indexes image_frame_kernels
        image_frame_lengths r := by
  unfold convolve_matrix_jit identity_mapping_matrix NDArray2.matVec convolve_vector
  dsimp only
  refine Finset.sum_congr rfl fun j hj => ?_
  have hcollapse :
      (∑ image_index ∈ Finset.range n,
        if 0 < (if image_index = j then (1 : ℝ) else 0) then
          ∑ kernel_index ∈ Finset.range (image_frame_lengths image_index),
            if image_frame_indexes image_index kernel_index = r then
              (if image_index = j then (1 : ℝ) else 0) *
                image_frame_kernels image_index kernel_index
            else 0
        else 0) =
      ∑ kernel_index ∈ Finset.range (image_frame_lengths j),
        if image_frame_indexes j kernel_index = r then
          image_frame_kernels j kernel_index
        else 0 := by
    rw [Finset.sum_eq_single j]
    · simp
    · intro b _ hb
      simp [hb]
    · intro hj'
      exact absurd hj hj'
  rw [hcollapse, Finset.sum_mul]
  refine Finset.sum_congr rfl fun k _ => ?_
  by_cases hk : image_frame_indexes j k = r <;> simp [hk, mul_comm]

/-- C4 counterexample: on the literal 5×5 / 9-pixel scenario of the
integration test, the modelled fit does not produce any log-evidence
value at all: it fails with `InversionError`, because the claimed
formula's `log_det(R)` term takes the Cholesky log-determinant of the
adjacency Laplacian `R`, which is singular (`R · 1 = 0`). -/
theorem scenario_fit_is_error :
    fit_data_with_pixelization mapping_1to1 image_1s noise_1s reg_matrix =
      Except.error InversionError.inversionError :=
  scenario_fit_error

/-- C4 (amended): on the 5×5 / 9-pixel scenario, the normal-equations
matrix is the identity, the reconstruction is the all-ones source
vector, the chi-squared term and the regularization penalty are exactly
zero, and the `log_det(I+R)` term is well defined — but the evidence
itself is not produced: the Cholesky log-determinant of the singular
adjacency Laplacian `R` raises `InversionError`, so the fit fails
instead of returning
`-0.5 · (log_det(I+R) - log_det(R) + 9·log(2π))`. -/
theorem scenario_fit_amended :
    build_normal_equations mapping_1to1 noise_1s = 1 ∧
    solve 1 reg_matrix image_1s noise_1s mapping_1to1 = (fun _ => (1:ℝ)) ∧
    compute_chi_sq_term image_1s noise_1s
      (model_image_from_reconstruction mapping_1to1 (fun _ => (1:ℝ))) = 0 ∧
    PixFit.regularization_term_from_reconstruction
      ⟨fun _ => (1:ℝ), 1, reg_matrix⟩ = 0 ∧
    log_determinant_of_matrix_cholesky ((1 : Matrix (Fin 9) (Fin 9) ℝ) + reg_matrix) =
      Except.ok (Real.log ((1 : Matrix (Fin 9) (Fin 9) ℝ) + reg_matrix).det) ∧
    log_determinant_of_matrix_cholesky reg_matrix =
      Except.error InversionError.inversionError ∧
    fit_data_with_pixelization mapping_1to1 image_1s noise_1s reg_matrix =
      Except.error InversionError.inversionError := by
  refine ⟨scenario_F, scenario_s, ?_, scenario_regterm,
    logdet_ok one_add_reg_posDef, logdet_error reg_matrix_not_posDef,
    scenario_fit_error⟩
  rw [scenario_model]
  exact scenario_chi_zero

end AutoLens

namespace AutoLens

/-- C10: `HyperPhase.run` never mutates the results collection passed in
by the caller.  Provided the wrapped `phase.run` and `run_hyper`
behaviours only mutate the collection reference they are handed (the
frame hypotheses), the collection behind every valid caller reference is
unchanged after the run — the run works on a freshly allocated deep
copy — and the caller-visible effect is confined to the returned result
object, which is the wrapped phase's result with the hyper result
attached as an attribute named `hyper_name`. -/
theorem hyperPhase_run_frame {D : Type} (hp : HyperPhase D) (data : D) (s : Store)
    (r : ℕ) (hr : r < s.next)
    (hpr : ∀ (ref : ℕ) (st : Store) (q : ℕ), q ≠ ref →
      ((hp.phase_run data ref st).2).mem q = st.mem q)
    (hrh : ∀ (ref : ℕ) (st : Store) (q : ℕ), q ≠ ref →
      ((hp.run_hyper data ref st).2).mem q = st.mem q) :
    ((hp.run data (some r) s).2).mem r = s.mem r ∧
    (hp.run data (some r) s).1 =
      ((hp.phase_run data s.next (Store.alloc (s.mem r) s).2).1).setattr hp.hyper_name
        (hp.run_hyper data s.next
          (Store.add s.next hp.phase_name
            (hp.phase_run data s.next (Store.alloc (s.mem r) s).2).1
            (hp.phase_run data s.next (Store.alloc (s.mem r) s).2).2)).1 := by
  have hne : r ≠ s.next := ne_of_lt hr
  constructor
  · unfold HyperPhase.run Store.alloc Store.add
    dsimp only
    rw [hrh s.next _ r hne]
    dsimp only
    rw [Function.update_noteq hne]
    rw [hpr s.next _ r hne]
    dsimp only
    rw [Function.update_noteq hne]
  · rfl

/-- Witness for C10 at a concrete store and trivial phase behaviours. -/
theorem hyperPhase_run_frame_witness :
    ((HyperPhase.run (⟨"phase", "hyper", fun _ _ st => (ResultObj.mk 0 [], st),
        fun _ _ st => (ResultObj.mk 1 [], st)⟩ : HyperPhase Unit) () (some 0)
        ⟨1, fun _ => []⟩).2).mem 0 = (⟨1, fun _ => []⟩ : Store).mem 0 ∧
    (HyperPhase.run (⟨"phase", "hyper", fun _ _ st => (ResultObj.mk 0 [], st),
        fun _ _ st => (ResultObj.mk 1 [], st)⟩ : HyperPhase Unit) () (some 0)
        ⟨1, fun _ => []⟩).1 =
      (ResultObj.mk 0 []).setattr "hyper" (ResultObj.mk 1 []) :=
  hyperPhase_run_frame (⟨"phase", "hyper", fun _ _ st => (ResultObj.mk 0 [], st),
      fun _ _ st => (ResultObj.mk 1 [], st)⟩ : HyperPhase Unit) () ⟨1, fun _ => []⟩ 0
    (by norm_num) (fun _ _ _ _ => rfl) (fun _ _ _ _ => rfl)

end AutoLens
